import Mathlib

/-!
Verification development for the voicevox text-to-speech server core
(`src/index.ts`): the sentence chunker (`splitTextIntoSentences` plus the
long-sentence cutting loop of `textToSpeech`), the lookahead pipeline
scheduler (`processChunksParallel`), the playback sink
(`AudioPlayer.playAudio` / `AudioPlayer.stopAudio`), the dialogue queue
(`addToQueue` / `processQueue` / `conversationToSpeech`), and the
synthesizer client's descriptor overrides (`synthesizeSentence`).

Strings are modelled as `List Char`.  The asynchronous JS code is
single-threaded and cooperative, so each routine is embedded as a
deterministic function of an environment supplying (a) the outcome of each
engine synthesis call, (b) the outcome of each platform playback command,
and (c) the behaviour of the process-wide cancellation flag.  Inside one
pipeline run nothing sets the flag to `true`, so the flag is faithfully
represented by a count `cancelAt`: the flag reads `true` for the first
`cancelAt` consultations and `false` from then on, which covers every
point at which an external `stopAudio` can clear it.  Each routine also
emits a trace of observable events (synthesis calls, flag reads, platform
play commands, temp-file deletions) about which the claims are stated.
-/

namespace Voicevox

/-- Whitespace characters stripped by JS `String.prototype.trim` (the
ECMAScript WhiteSpace and LineTerminator sets, restricted to the code
points that can realistically occur). -/
def wsChar (c : Char) : Bool :=
  c = ' ' || c = '\t' || c = '\n' || c = '\r' ||
  c = Char.ofNat 11 || c = Char.ofNat 12 || c = Char.ofNat 160 ||
  c = Char.ofNat 0x3000 || c = Char.ofNat 0xFEFF ||
  c = Char.ofNat 0x2028 || c = Char.ofNat 0x2029

/-- Sentence-terminal characters of the split regex `(?<=[。.])` in
`splitTextIntoSentences`. -/
def isTermCh (c : Char) : Bool := c = '。' || c = '.'

/-- Concatenation of a list of lists. -/
def catL {α : Type} : List (List α) → List α
  | [] => []
  | x :: xs => x ++ catL xs

/-- `text.split(/(?<=[。.])/g)`: break the text after every occurrence of a
sentence-terminal character, keeping the terminal attached to the piece
before it (and dropping the degenerate empty trailing piece, which JS never
produces for a zero-width match at the end of the string). -/
def splitAfterTerm : List Char → List (List Char)
  | [] => []
  | c :: rest =>
    if isTermCh c then [c] :: splitAfterTerm rest
    else
      match splitAfterTerm rest with
      | [] => [[c]]
      | p :: ps => (c :: p) :: ps

/-- Leading-whitespace removal. -/
def trimLeft (s : List Char) : List Char := s.dropWhile wsChar

/-- Trailing-whitespace removal. -/
def trimR (s : List Char) : List Char := (s.reverse.dropWhile wsChar).reverse

/-- JS `s.trim()`. -/
def trimWS (s : List Char) : List Char := trimR (trimLeft s)

/-- `splitTextIntoSentences` (src/index.ts lines 280-291): split at
sentence terminals, trim each piece, drop empty pieces; if nothing is left
but the trimmed text is non-empty, the whole trimmed text is one
sentence. -/
def sentencesRaw (t : List Char) : List (List Char) :=
  ((splitAfterTerm t).map trimWS).filter fun s => decide (s ≠ [])

/-- The final sentence list, with the fallback branch
`sentences.length === 0 && text.trim().length > 0`. -/
def splitTextIntoSentences (t : List Char) : List (List Char) :=
  if sentencesRaw t = [] ∧ trimWS t ≠ [] then [trimWS t] else sentencesRaw t

/-- The backward scan of the long-sentence cutting loop (src/index.ts
lines 584-590): `for (let j = chunkEnd; j > MAX_CHUNK_LENGTH / 2; j--)`
looking for `remainingText.charAt(j-1) === '。'`.  The JS bound is float
division, so the integer condition is `2*j > m`.  Returns the first (that
is, greatest) hit, or `none`. -/
def scanBack (s : List Char) (m : Nat) : Nat → Option Nat
  | 0 => none
  | j + 1 =>
    if 2 * (j + 1) > m then
      if s.get? j = some '。' then some (j + 1) else scanBack s m j
    else none

/-- The cut offset chosen for one iteration of the cutting loop:
`chunkEnd = min(remaining.length, MAX_CHUNK_LENGTH)` possibly lowered to a
scan hit. -/
def findCut (s : List Char) (m : Nat) : Nat :=
  (scanBack s m (min s.length m)).getD (min s.length m)

/-- The cutting loop `while (remainingText.length > 0)` of `textToSpeech`,
generic in the cut-offset function and fuelled (each iteration consumes at
least one character whenever the cut offset is positive, so fuel
`s.length` is exact). -/
def cutIter (cp : List Char → Nat → Nat) : Nat → List Char → Nat → List (List Char)
  | 0, s, _ => if s = [] then [] else [s]
  | fuel + 1, s, m =>
    if s = [] then [] else s.take (cp s m) :: cutIter cp fuel (s.drop (cp s m)) m

/-- The long-sentence cutter of the source. -/
def cutSentence (s : List Char) (m : Nat) : List (List Char) := cutIter findCut s.length s m

/-- Per-sentence chunking in `textToSpeech` (lines 576-598): sentences
longer than `MAX_CHUNK_LENGTH` go through the cutting loop, the rest are
kept whole. -/
def chunkSentence (m : Nat) (s : List Char) : List (List Char) :=
  if m < s.length then cutSentence s m else [s]

/-- The full chunking stage of `textToSpeech`: sentence split followed by
long-sentence cutting, in order. -/
def textToChunks (t : List Char) (m : Nat) : List (List Char) :=
  catL ((splitTextIntoSentences t).map (chunkSentence m))

/-- Is the character just before offset `j` (JS `charAt(j-1)`) a
sentence-terminal character? -/
def termAt (s : List Char) (j : Nat) : Bool :=
  match s.get? (j - 1) with
  | some c => isTermCh c
  | none => false

/-- Is the character just before offset `j` the Japanese full stop? -/
def jpAt (s : List Char) (j : Nat) : Bool :=
  match s.get? (j - 1) with
  | some c => c = '。'
  | none => false

/-- Modelled from the claim's words (C7): the cut offset described by the
spec, with the backward-scan window `(m/2, min(length, m)]` and the
terminal set being "the same period-like characters used for sentence
splitting", i.e. both '。' and '.'.  The greatest qualifying offset is the
first one met scanning backward. -/
def cutPointClaim (s : List Char) (m : Nat) : Nat :=
  if Nat.findGreatest (fun j => 2 * j > m ∧ termAt s j = true) (min s.length m) = 0
  then min s.length m
  else Nat.findGreatest (fun j => 2 * j > m ∧ termAt s j = true) (min s.length m)

/-- Like `cutPointClaim` but with the terminal set the code actually
scans for: only '。'. -/
def cutPointSpec (s : List Char) (m : Nat) : Nat :=
  if Nat.findGreatest (fun j => 2 * j > m ∧ jpAt s j = true) (min s.length m) = 0
  then min s.length m
  else Nat.findGreatest (fun j => 2 * j > m ∧ jpAt s j = true) (min s.length m)

/-- The cutter as the claim describes it (terminals '。' and '.'). -/
def cutSentenceClaim (s : List Char) (m : Nat) : List (List Char) :=
  cutIter cutPointClaim s.length s m

/-- The cutter as amended (terminal '。' only). -/
def cutSentenceSpec (s : List Char) (m : Nat) : List (List Char) :=
  cutIter cutPointSpec s.length s m

/-- A whitespace-only string. -/
def allWS (l : List Char) : Prop := ∀ c ∈ l, wsChar c = true

/-- `wsConcat cs t`: the text `t` is the chunks `cs` in order, interleaved
with (possibly empty) whitespace-only gaps — "concatenation ignoring
whitespace at chunk boundaries equals the original text". -/
def wsConcat : List (List Char) → List Char → Prop
  | [], t => allWS t
  | c :: cs, t => ∃ w rest, allWS w ∧ wsConcat cs rest ∧ t = w ++ c ++ rest

/-- Observable events of the pipeline scheduler and playback sink:
`synth i ok` — a synthesis request for chunk `i` is issued to the engine
and comes back with outcome `ok` (`synthesizeSentence`); `read v` — the
cancellation flag `isPlayingAudio` is consulted and reads `v`;
`exec i ok` — the platform playback command is run for chunk `i`'s audio
file with outcome `ok`; `unlink i` — chunk `i`'s temporary audio file is
deleted. -/
inductive Ev where
  | synth : Nat → Bool → Ev
  | read : Bool → Ev
  | exec : Nat → Bool → Ev
  | unlink : Nat → Ev
deriving DecidableEq

/-- Environment of one pipeline run: outcome of synthesizing chunk `i`,
outcome of the platform play command for chunk `i`, and the cancellation
flag behaviour — the flag reads `true` for the first `cancelAt`
consultations and `false` afterwards (within a run nothing sets it back to
`true`, so this captures an external `stopAudio` arriving at any point). -/
structure Env where
  synthOk : Nat → Bool
  playOk : Nat → Bool
  cancelAt : Nat

/-- Value of the cancellation flag at its `r`-th consultation. -/
def readF (env : Env) (r : Nat) : Bool := decide (r < env.cancelAt)

/-- Result of one `playAudio` call: events, flag-read count, success. -/
structure POut where
  evs : List Ev
  reads : Nat
  ok : Bool
deriving DecidableEq

/-- `AudioPlayer.playAudio` (src/index.ts lines 508-544) for chunk `i`'s
audio file: consult the flag; if `false`, delete the file and fail without
running the platform player; otherwise run the blocking platform command —
on success delete the file and succeed, on command failure the thrown
error skips the deletion and the catch block reports failure. -/
def playA (env : Env) (r i : Nat) : POut :=
  if readF env r then
    if env.playOk i then ⟨[Ev.read true, Ev.exec i true, Ev.unlink i], r + 1, true⟩
    else ⟨[Ev.read true, Ev.exec i false], r + 1, false⟩
  else ⟨[Ev.read false, Ev.unlink i], r + 1, false⟩

/-- Result of the steady-state `for...of` loop: events, `currentIndex`,
`preloadedResults.length`, flag-read count, `hasError`. -/
structure FOut where
  evs : List Ev
  ci : Nat
  bufLen : Nat
  reads : Nat
  err : Bool
deriving DecidableEq

/-- The steady-state `for (const preloadedResult of preloadedResults)`
loop of `processChunksParallel` (lines 689-709).  JS array iteration sees
elements pushed during the loop, and consumed elements are never removed,
so the loop state is the list of not-yet-consumed buffered chunk indices
`pending` together with the full length `bufLen` of `preloadedResults`.
Each iteration: check the flag (break when `false`); compute
`nextIndex = currentIndex + preloadedResults.length` and, if it is still
inside the chunk list, start synthesizing that chunk; play the buffered
chunk; on a play failure record the error; advance `currentIndex`; if the
kicked-off synthesis succeeded, append its chunk to the buffer. -/
def forL (env : Env) (n : Nat) : Nat → List Nat → Nat → Nat → Nat → Bool → FOut
  | 0, _, bufLen, ci, r, err => ⟨[], ci, bufLen, r, err⟩
  | _ + 1, [], bufLen, ci, r, err => ⟨[], ci, bufLen, r, err⟩
  | fuel + 1, b :: rest, bufLen, ci, r, err =>
    if readF env r then
      let ni := ci + bufLen
      let sEvs := if ni < n then [Ev.synth ni (env.synthOk ni)] else []
      let p := playA env (r + 1) b
      let doPush := decide (ni < n) && env.synthOk ni
      let pending2 := if doPush then rest ++ [ni] else rest
      let bufLen2 := if doPush then bufLen + 1 else bufLen
      let o := forL env n fuel pending2 bufLen2 (ci + 1) p.reads (err || !p.ok)
      ⟨Ev.read true :: (sEvs ++ (p.evs ++ o.evs)), o.ci, o.bufLen, o.reads, o.err⟩
    else ⟨[Ev.read false], ci, bufLen, r + 1, err⟩

/-- Result of the sequential tail loop: events, flag-read count,
`hasError`. -/
structure WOut where
  evs : List Ev
  reads : Nat
  err : Bool
deriving DecidableEq

/-- The sequential tail loop
`while (currentIndex + preloadedResults.length < chunks.length)` of
`processChunksParallel` (lines 711-731): check the flag (break when
`false`), synthesize the next chunk, check the flag again, on synthesis
failure record the error and skip, otherwise play the chunk and record any
play failure. -/
def whileL (env : Env) (n : Nat) : Nat → Nat → Nat → Nat → Bool → WOut
  | 0, _, _, r, err => ⟨[], r, err⟩
  | fuel + 1, ci, bufLen, r, err =>
    if ci + bufLen < n then
      if readF env r then
        let ni := ci + bufLen
        if readF env (r + 1) then
          if env.synthOk ni then
            let p := playA env (r + 2) ni
            let o := whileL env n fuel (ci + 1) bufLen p.reads (err || !p.ok)
            ⟨Ev.read true :: Ev.synth ni true :: Ev.read true :: (p.evs ++ o.evs), o.reads, o.err⟩
          else
            let o := whileL env n fuel (ci + 1) bufLen (r + 2) true
            ⟨Ev.read true :: Ev.synth ni false :: Ev.read true :: o.evs, o.reads, o.err⟩
        else ⟨[Ev.read true, Ev.synth ni (env.synthOk ni), Ev.read false], r + 2, err⟩
      else ⟨[Ev.read false], r + 1, err⟩
    else ⟨[], r, err⟩

/-- Result of one pipeline run: events, flag-read count, overall
success. -/
structure ROut where
  evs : List Ev
  reads : Nat
  ok : Bool
deriving DecidableEq

/-- Indices of the lookahead batch `for (let i = 1; i < Math.min(chunks.length, MAX_PARALLEL); i++)`
with `MAX_PARALLEL = 3`. -/
def preIdx (n : Nat) : List Nat := List.range' 1 (min n 3 - 1)

/-- The buffered chunk indices after the lookahead batch settles: the
indices of `preIdx n` whose synthesis succeeded, in order
(`Promise.allSettled` + the `fulfilled && success` filter). -/
def pend0 (env : Env) (n : Nat) : List Nat :=
  (preIdx n).filter fun i => env.synthOk i

/-- Whether any lookahead synthesis failed (`hasError = true` in the
`allSettled` loop). -/
def err0 (env : Env) (n : Nat) : Bool :=
  decide ((pend0 env n).length ≠ (preIdx n).length)

/-- The steady-state loop of one run: it starts with the settled
lookahead buffer, `currentIndex = 1`, the flag-read count after playing
chunk 0, and the error flag accumulated so far. -/
def runF (env : Env) (n r0 : Nat) : FOut :=
  forL env n (2 * n + 4) (pend0 env n) (pend0 env n).length 1
    (playA env r0 0).reads (err0 env n || !(playA env r0 0).ok)

/-- The sequential tail of one run, continuing from the steady-state
loop's final state. -/
def runW (env : Env) (n r0 : Nat) : WOut :=
  whileL env n (n + 1) (runF env n r0).ci (runF env n r0).bufLen
    (runF env n r0).reads (runF env n r0).err

/-- `processChunksParallel` (src/index.ts lines 647-734) for `n` chunks,
starting at flag-read count `r0`: empty chunk list succeeds trivially;
synthesize chunk 0 (failure aborts the run); launch the lookahead batch
and await it, keeping the successes in order and recording an error for
any failure; play chunk 0; run the steady-state loop and then the
sequential tail; return success iff no error was recorded. -/
def processChunks (env : Env) (n : Nat) (r0 : Nat) : ROut :=
  if n = 0 then ⟨[], r0, true⟩
  else if env.synthOk 0 then
    ⟨Ev.synth 0 true ::
        ((preIdx n).map (fun i => Ev.synth i (env.synthOk i)) ++
          ((playA env r0 0).evs ++ ((runF env n r0).evs ++ (runW env n r0).evs))),
      (runW env n r0).reads, !(runW env n r0).err⟩
  else ⟨[Ev.synth 0 false], r0, false⟩

/-- Is an event a platform play-command invocation? -/
def isExecEv : Ev → Bool
  | Ev.exec _ _ => true
  | _ => false

/-- No platform play command occurs in the trace. -/
def noExec (l : List Ev) : Prop := ∀ e ∈ l, isExecEv e = false

/-- After the first `false` flag read in the trace, no platform play
command occurs. -/
def SafeF : List Ev → Prop
  | [] => True
  | e :: rest => if e = Ev.read false then noExec rest else SafeF rest

/-- Chunk indices of the platform play commands of a trace, in order. -/
def execIdx : List Ev → List Nat
  | [] => []
  | Ev.exec i _ :: rest => i :: execIdx rest
  | _ :: rest => execIdx rest

/-- Environment of a whole dialogue drain: synthesis and playback outcomes
per (turn-list index, turn index, chunk index), and per-list cancellation:
`conversationToSpeech` sets the flag `true` at the start of each turn-list,
so within list `l` the flag reads `true` for the first `cancelAt l`
consultations and `false` afterwards. -/
structure EnvD where
  synthOk : Nat → Nat → Nat → Bool
  playOk : Nat → Nat → Nat → Bool
  cancelAt : Nat → Nat

/-- The pipeline environment seen while processing turn `k` of list `l`. -/
def envAt (env : EnvD) (l k : Nat) : Env := ⟨env.synthOk l k, env.playOk l k, env.cancelAt l⟩

/-- Result of processing one turn-list: tagged events, flag-read count,
success. -/
structure COut where
  evs : List (Nat × Nat × Ev)
  reads : Nat
  ok : Bool
deriving DecidableEq

/-- `conversationToSpeech` (src/index.ts lines 612-638) for turn-list `l`,
starting at turn `k`: for each turn, consult the flag (an unauthorized
state aborts the list with failure), run the turn's text through chunking
and the pipeline, and abort the list with failure if the turn failed.
Events are tagged with (turn-list index, turn index). -/
def convLoop (env : EnvD) (m l : Nat) : List (List Char) → Nat → Nat → COut
  | [], _, r => ⟨[], r, true⟩
  | t :: ts, k, r =>
    if decide (r < env.cancelAt l) then
      let o := processChunks (envAt env l k) (textToChunks t m).length (r + 1)
      let tagged := (l, k, Ev.read true) :: o.evs.map fun e => (l, k, e)
      if o.ok then
        let c := convLoop env m l ts (k + 1) o.reads
        ⟨tagged ++ c.evs, c.reads, c.ok⟩
      else ⟨tagged, o.reads, false⟩
    else ⟨[(l, k, Ev.read false)], r + 1, false⟩

/-- The queue drain (`AudioPlayer.processQueue`, lines 457-474): pop
turn-lists from the front of the FIFO one at a time, awaiting
`conversationToSpeech` for each before moving to the next. -/
def drain (env : EnvD) (m : Nat) : List (List (List Char)) → Nat → List (Nat × Nat × Ev)
  | [], _ => []
  | l :: ls, i => (convLoop env m i l 0 0).evs ++ drain env m ls (i + 1)

/-- Order on event tags: an earlier turn-list, or the same turn-list and
an earlier-or-equal turn. -/
def tagLe (a b : Nat × Nat × Ev) : Prop :=
  a.1 < b.1 ∨ (a.1 = b.1 ∧ a.2.1 ≤ b.2.1)

/-- No platform play command occurs in a tagged trace. -/
def noExecD (l : List (Nat × Nat × Ev)) : Prop := ∀ e ∈ l, isExecEv e.2.2 = false

/-- The mutable state of the `AudioPlayer`: the process-wide cancellation
flag `isPlayingAudio` and the dialogue queue. -/
structure QueueState where
  flag : Bool
  queue : List (List (List Char))
deriving DecidableEq

/-- `AudioPlayer.stopAudio` (src/index.ts lines 481-500): set the flag to
`false`, clear the queue, fire the best-effort platform kill command, and
report success. -/
def stopAudio (_ : QueueState) : QueueState × Bool := (⟨false, []⟩, true)

/-- The configured synthesis constants (`VOLUME_SCALE`, `SPEED_SCALE`,
`PRE_PHONEME_LENGTH`, `POST_PHONEME_LENGTH`, `INTONATION_SCALE`), abstract
in the value type since the claims only concern which fields change. -/
structure Cfg (α : Type) where
  volume : α
  speed : α
  pre : α
  post : α
  intonation : α

/-- JS object property assignment `obj[k] = v` on a descriptor modelled as
an ordered key-value list: replace the first binding of `k` in place, or
append a new binding. -/
def setField {α : Type} : List (String × α) → String → α → List (String × α)
  | [], k, v => [(k, v)]
  | (k', v') :: rest, k, v =>
    if k' = k then (k, v) :: rest else (k', v') :: setField rest k v

/-- Property lookup on a descriptor. -/
def lookupKV {α : Type} : List (String × α) → String → Option α
  | [], _ => none
  | (k', v) :: rest, k => if k' = k then some v else lookupKV rest k

/-- The five assignments of `synthesizeSentence` (src/index.ts lines
353-357) applied to the descriptor returned by the engine's query
endpoint, in source order. -/
def applyOverrides {α : Type} (q : List (String × α)) (c : Cfg α) : List (String × α) :=
  setField (setField (setField (setField (setField
    q "volumeScale" c.volume) "speedScale" c.speed) "prePhonemeLength" c.pre)
    "postPhonemeLength" c.post) "intonationScale" c.intonation

/-- Run environment where only chunk 1's synthesis fails, playback always
succeeds and no stop arrives. -/
def env1 : Env := ⟨fun i => decide (i ≠ 1), fun _ => true, 1000⟩

/-- Run environment where everything succeeds and the cancellation flag is
cleared after its first consultation (a `stopAudio` arriving during the
playback of chunk 0). -/
def env2 : Env := ⟨fun _ => true, fun _ => true, 1⟩

/-- Run environment where only chunk 3's synthesis fails, playback always
succeeds and no stop arrives. -/
def env4 : Env := ⟨fun i => decide (i ≠ 3), fun _ => true, 1000⟩

/-- Run environment where only chunk 2's synthesis fails, playback always
succeeds and no stop arrives (the concrete scenario named by C4). -/
def env4b : Env := ⟨fun i => decide (i ≠ 2), fun _ => true, 1000⟩

/-- Run environment where synthesis succeeds, every platform play command
fails, and no stop arrives. -/
def env5 : Env := ⟨fun _ => true, fun _ => false, 1000⟩

/-- Drain environment where every engine call and platform command
succeeds and the flag of every turn-list is cleared after one
consultation. -/
def envD1 : EnvD := ⟨fun _ _ _ => true, fun _ _ _ => true, fun _ => 1⟩

theorem catL_append {α : Type} (xs ys : List (List α)) :
    catL (xs ++ ys) = catL xs ++ catL ys := by
  induction xs with
  | nil => rfl
  | cons x xs ih => simp [catL, ih]

theorem mem_catL {α : Type} {c : α} {ls : List (List α)} (h : c ∈ catL ls) :
    ∃ l ∈ ls, c ∈ l := by
  induction ls with
  | nil => simp [catL] at h
  | cons x xs ih =>
    rw [catL, List.mem_append] at h
    rcases h with h | h
    · exact ⟨x, by simp, h⟩
    · rcases ih h with ⟨l, hl, hc⟩
      exact ⟨l, by simp [hl], hc⟩

theorem mem_catL_of_mem {α : Type} {c : α} {l : List α} {ls : List (List α)}
    (hl : l ∈ ls) (hc : c ∈ l) : c ∈ catL ls := by
  induction ls with
  | nil => simp at hl
  | cons x xs ih =>
    rw [catL, List.mem_append]
    rcases List.mem_cons.mp hl with h | h
    · exact Or.inl (h ▸ hc)
    · exact Or.inr (ih h)

theorem splitAfterTerm_join (t : List Char) : catL (splitAfterTerm t) = t := by
  induction t with
  | nil => rfl
  | cons c rest ih =>
    by_cases h : isTermCh c = true
    · simp [splitAfterTerm, h, catL, ih]
    · rw [splitAfterTerm, if_neg (by simp [h])]
      cases hs : splitAfterTerm rest with
      | nil =>
        rw [hs] at ih
        simp only [catL] at ih ⊢
        simp [← ih]
      | cons p ps =>
        rw [hs] at ih
        simp only [catL] at ih ⊢
        simp [← ih]

theorem allWS_nil : allWS [] := fun c hc => by simp at hc

theorem allWS_append {a b : List Char} (ha : allWS a) (hb : allWS b) :
    allWS (a ++ b) := by
  intro c hc
  rcases List.mem_append.mp hc with h | h
  exacts [ha c h, hb c h]

theorem allWS_takeWhile (s : List Char) : allWS (s.takeWhile wsChar) :=
  fun _ hc => List.mem_takeWhile_imp hc

theorem trimLeft_decomp (s : List Char) : ∃ w, allWS w ∧ s = w ++ trimLeft s :=
  ⟨s.takeWhile wsChar, allWS_takeWhile s,
    (List.takeWhile_append_dropWhile wsChar s).symm⟩

theorem trimR_decomp (s : List Char) : ∃ w, allWS w ∧ s = trimR s ++ w := by
  refine ⟨(s.reverse.takeWhile wsChar).reverse, ?_, ?_⟩
  · intro c hc
    exact allWS_takeWhile s.reverse c (List.mem_reverse.mp hc)
  · conv_lhs => rw [← s.reverse_reverse,
      ← List.takeWhile_append_dropWhile wsChar s.reverse]
    rw [List.reverse_append]
    rfl

theorem trimWS_decomp (s : List Char) :
    ∃ w1 w2, allWS w1 ∧ allWS w2 ∧ s = w1 ++ trimWS s ++ w2 := by
  obtain ⟨w1, hw1, h1⟩ := trimLeft_decomp s
  obtain ⟨w2, hw2, h2⟩ := trimR_decomp (trimLeft s)
  exact ⟨w1, w2, hw1, hw2,
    (h1.trans (congrArg (w1 ++ ·) h2)).trans
      (List.append_assoc w1 (trimR (trimLeft s)) w2).symm⟩

theorem trimWS_eq_nil_of_allWS {s : List Char} (h : allWS s) : trimWS s = [] := by
  have h1 : trimLeft s = [] := List.dropWhile_eq_nil_iff.mpr h
  simp [trimWS, h1, trimR]

theorem allWS_of_trimWS_eq_nil {s : List Char} (h : trimWS s = []) : allWS s := by
  obtain ⟨w1, w2, hw1, hw2, hs⟩ := trimWS_decomp s
  rw [h] at hs
  intro c hc
  rw [hs] at hc
  simp only [List.append_nil, List.mem_append] at hc
  rcases hc with hc | hc
  exacts [hw1 c hc, hw2 c hc]

theorem wsConcat_of_catL_eq {cs : List (List Char)} {t : List Char}
    (h : catL cs = t) : wsConcat cs t := by
  induction cs generalizing t with
  | nil => exact h ▸ allWS_nil
  | cons c cs ih =>
    exact ⟨[], catL cs, allWS_nil, ih rfl, by rw [← h]; rfl⟩

theorem wsConcat_ws_left {cs : List (List Char)} {t w : List Char}
    (hw : allWS w) (h : wsConcat cs t) : wsConcat cs (w ++ t) := by
  cases cs with
  | nil => exact allWS_append hw h
  | cons c cs =>
    obtain ⟨w', rest, hw', hrest, ht⟩ := h
    exact ⟨w ++ w', rest, allWS_append hw hw', hrest, by rw [ht]; simp⟩

theorem wsConcat_append {as bs : List (List Char)} {t1 t2 : List Char}
    (ha : wsConcat as t1) (hb : wsConcat bs t2) :
    wsConcat (as ++ bs) (t1 ++ t2) := by
  induction as generalizing t1 with
  | nil => exact wsConcat_ws_left ha hb
  | cons a as ih =>
    obtain ⟨w, rest, hw, hrest, ht⟩ := ha
    exact ⟨w, rest ++ t2, hw, ih hrest, by rw [ht]; simp⟩

theorem wsConcat_ws_right {cs : List (List Char)} {t w : List Char}
    (h : wsConcat cs t) (hw : allWS w) : wsConcat cs (t ++ w) := by
  have h2 : wsConcat (cs ++ []) (t ++ w) := wsConcat_append h hw
  simpa using h2

theorem scanBack_some {s : List Char} {m : Nat} :
    ∀ {k j}, scanBack s m k = some j →
      j ≤ k ∧ 2 * j > m ∧ s.get? (j - 1) = some '。' := by
  intro k
  induction k with
  | zero => intro j h; simp [scanBack] at h
  | succ k ih =>
    intro j h
    rw [scanBack] at h
    split at h
    · split at h
      · rename_i hwin hchar
        cases h
        exact ⟨le_rfl, hwin, by simpa using hchar⟩
      · obtain ⟨h1, h2, h3⟩ := ih h
        exact ⟨Nat.le_succ_of_le h1, h2, h3⟩
    · simp at h

theorem findCut_le (s : List Char) (m : Nat) : findCut s m ≤ min s.length m := by
  unfold findCut
  cases h : scanBack s m (min s.length m) with
  | none => simp
  | some j => simpa using (scanBack_some h).1

theorem findCut_pos {s : List Char} {m : Nat} (hs : s ≠ []) (hm : 1 ≤ m) :
    1 ≤ findCut s m := by
  unfold findCut
  cases h : scanBack s m (min s.length m) with
  | none =>
    have : 1 ≤ s.length := List.length_pos.mpr hs
    simp [Option.getD]
    omega
  | some j =>
    have := (scanBack_some h).2.1
    simp [Option.getD]
    omega

theorem cut_join {m : Nat} (hm : 1 ≤ m) :
    ∀ (fuel : Nat) (s : List Char), s.length ≤ fuel →
      catL (cutIter findCut fuel s m) = s := by
  intro fuel
  induction fuel with
  | zero =>
    intro s hf
    have : s = [] := List.eq_nil_of_length_eq_zero (Nat.le_zero.mp hf)
    subst this
    rfl
  | succ fuel ih =>
    intro s hf
    rw [cutIter]
    by_cases hs : s = []
    · subst hs
      simp [catL]
    · rw [if_neg hs]
      have hpos : 1 ≤ findCut s m := findCut_pos hs hm
      have hdrop : (s.drop (findCut s m)).length ≤ fuel := by
        rw [List.length_drop]
        have : 1 ≤ s.length := List.length_pos.mpr hs
        omega
      rw [catL, ih _ hdrop, List.take_append_drop]

theorem cut_len_le {m : Nat} (hm : 1 ≤ m) :
    ∀ (fuel : Nat) (s : List Char), s.length ≤ fuel →
      ∀ c ∈ cutIter findCut fuel s m, c.length ≤ m := by
  intro fuel
  induction fuel with
  | zero =>
    intro s hf c hc
    have : s = [] := List.eq_nil_of_length_eq_zero (Nat.le_zero.mp hf)
    subst this
    simp [cutIter] at hc
  | succ fuel ih =>
    intro s hf c hc
    rw [cutIter] at hc
    by_cases hs : s = []
    · simp [hs] at hc
    · rw [if_neg hs] at hc
      rcases List.mem_cons.mp hc with h | h
      · subst h
        rw [List.length_take]
        have := findCut_le s m
        omega
      · have hpos : 1 ≤ findCut s m := findCut_pos hs hm
        have hdrop : (s.drop (findCut s m)).length ≤ fuel := by
          rw [List.length_drop]
          have : 1 ≤ s.length := List.length_pos.mpr hs
          omega
        exact ih _ hdrop c h

theorem cut_ne_nil {m : Nat} (hm : 1 ≤ m) :
    ∀ (fuel : Nat) (s : List Char), s.length ≤ fuel →
      ∀ c ∈ cutIter findCut fuel s m, c ≠ [] := by
  intro fuel
  induction fuel with
  | zero =>
    intro s hf c hc
    have : s = [] := List.eq_nil_of_length_eq_zero (Nat.le_zero.mp hf)
    subst this
    simp [cutIter] at hc
  | succ fuel ih =>
    intro s hf c hc
    rw [cutIter] at hc
    by_cases hs : s = []
    · simp [hs] at hc
    · rw [if_neg hs] at hc
      have hpos : 1 ≤ findCut s m := findCut_pos hs hm
      have hlen : 1 ≤ s.length := List.length_pos.mpr hs
      rcases List.mem_cons.mp hc with h | h
      · subst h
        have : (s.take (findCut s m)).length = min (findCut s m) s.length :=
          List.length_take _ _
        intro hnil
        rw [hnil] at this
        simp at this
        omega
      · have hdrop : (s.drop (findCut s m)).length ≤ fuel := by
          rw [List.length_drop]
          omega
        exact ih _ hdrop c h

theorem chunkSentence_join {m : Nat} (hm : 1 ≤ m) (s : List Char) :
    catL (chunkSentence m s) = s := by
  unfold chunkSentence
  split
  · exact cut_join hm s.length s le_rfl
  · simp [catL]

theorem chunkSentence_len {m : Nat} (hm : 1 ≤ m) {s c : List Char}
    (hc : c ∈ chunkSentence m s) : c.length ≤ m := by
  unfold chunkSentence at hc
  split at hc
  · exact cut_len_le hm s.length s le_rfl c hc
  · rename_i h
    rcases List.mem_singleton.mp hc with rfl
    omega

theorem chunkSentence_ne {m : Nat} (hm : 1 ≤ m) {s c : List Char}
    (hs : s ≠ []) (hc : c ∈ chunkSentence m s) : c ≠ [] := by
  unfold chunkSentence at hc
  split at hc
  · exact cut_ne_nil hm s.length s le_rfl c hc
  · rcases List.mem_singleton.mp hc with rfl
    exact hs

theorem sentences_ne_nil {t s : List Char}
    (h : s ∈ splitTextIntoSentences t) : s ≠ [] := by
  unfold splitTextIntoSentences at h
  split at h
  · rename_i hcond
    rcases List.mem_singleton.mp h with rfl
    exact hcond.2
  · have := List.of_mem_filter h
    simpa using this

theorem chunks_ws {m : Nat} (hm : 1 ≤ m) :
    ∀ pieces : List (List Char),
      wsConcat
        (catL (((pieces.map trimWS).filter fun s => decide (s ≠ [])).map
          (chunkSentence m)))
        (catL pieces) := by
  intro pieces
  induction pieces with
  | nil => exact allWS_nil
  | cons p ps ih =>
    rw [show catL (p :: ps) = p ++ catL ps from rfl]
    by_cases hp : trimWS p = []
    · have hws : allWS p := allWS_of_trimWS_eq_nil hp
      have hfil : (((p :: ps).map trimWS).filter fun s => decide (s ≠ [])) =
          ((ps.map trimWS).filter fun s => decide (s ≠ [])) := by
        simp [hp]
      rw [hfil]
      exact wsConcat_ws_left hws ih
    · obtain ⟨w1, w2, hw1, hw2, hdecomp⟩ := trimWS_decomp p
      have hfil : (((p :: ps).map trimWS).filter fun s => decide (s ≠ [])) =
          trimWS p :: ((ps.map trimWS).filter fun s => decide (s ≠ [])) := by
        simp [hp]
      rw [hfil]
      have h1 : wsConcat (chunkSentence m (trimWS p)) (w1 ++ trimWS p) :=
        wsConcat_ws_left hw1 (wsConcat_of_catL_eq (chunkSentence_join hm (trimWS p)))
      have h2 := wsConcat_ws_left hw2 ih
      have h3 := wsConcat_append h1 h2
      have htext : p ++ catL ps = (w1 ++ trimWS p) ++ (w2 ++ catL ps) := by
        conv_lhs => rw [hdecomp]
        simp [List.append_assoc]
      rw [htext]
      exact h3

/-- C3: for every input text (and any positive `MAX_CHUNK_LENGTH`), the
chunking stage produces an ordered list of chunks whose concatenation,
ignoring whitespace at chunk boundaries, equals the original text; no
produced chunk has length exceeding `MAX_CHUNK_LENGTH` (in particular
also in the hard-cut case); and empty or whitespace-only input yields an
empty chunk list. -/
theorem c3_chunker (t : List Char) (m : Nat) (hm : 1 ≤ m) :
    wsConcat (textToChunks t m) t ∧
      (∀ c ∈ textToChunks t m, c.length ≤ m) ∧
      (allWS t → textToChunks t m = []) := by
  refine ⟨?_, ?_, ?_⟩
  · unfold textToChunks splitTextIntoSentences
    split
    · rename_i hcond
      obtain ⟨w1, w2, hw1, hw2, hdecomp⟩ := trimWS_decomp t
      have hbase : wsConcat (chunkSentence m (trimWS t)) (trimWS t) :=
        wsConcat_of_catL_eq (chunkSentence_join hm (trimWS t))
      have h1 : wsConcat (chunkSentence m (trimWS t)) (w1 ++ trimWS t ++ w2) := by
        have := wsConcat_ws_right (wsConcat_ws_left hw1 hbase) hw2
        simpa [List.append_assoc] using this
      have hcat : catL ([trimWS t].map (chunkSentence m)) =
          chunkSentence m (trimWS t) := by
        simp [catL]
      rw [hcat]
      have h2 : ∀ u : List Char, u = w1 ++ trimWS t ++ w2 →
          wsConcat (chunkSentence m (trimWS t)) u := by
        intro u hu
        rw [hu]
        exact h1
      exact h2 t hdecomp
    · have := chunks_ws hm (splitAfterTerm t)
      rw [splitAfterTerm_join] at this
      exact this
  · intro c hc
    unfold textToChunks at hc
    obtain ⟨cs, hcs, hmem⟩ := mem_catL hc
    obtain ⟨s, _, rfl⟩ := List.mem_map.mp hcs
    exact chunkSentence_len hm hmem
  · intro hws
    have htrim : trimWS t = [] := trimWS_eq_nil_of_allWS hws
    have hraw : sentencesRaw t = [] := by
      unfold sentencesRaw
      rw [List.filter_eq_nil_iff]
      intro s hs
      obtain ⟨p, hp, rfl⟩ := List.mem_map.mp hs
      have hall : allWS p := by
        intro c hcp
        exact hws c (by
          rw [← splitAfterTerm_join t]
          exact mem_catL_of_mem hp hcp)
      simp [trimWS_eq_nil_of_allWS hall]
    unfold textToChunks splitTextIntoSentences
    rw [if_neg (by simp [htrim])]
    simp [hraw, catL]

/-- C3 witness: the theorem applied at a concrete text and the default
`MAX_CHUNK_LENGTH` of 300. -/
theorem c3_chunker_witness :
    1 ≤ 300 ∧
      (wsConcat (textToChunks "Hi. Bye.".data 300) "Hi. Bye.".data ∧
        (∀ c ∈ textToChunks "Hi. Bye.".data 300, c.length ≤ 300) ∧
        (allWS "Hi. Bye.".data → textToChunks "Hi. Bye.".data 300 = [])) :=
  ⟨by decide, c3_chunker "Hi. Bye.".data 300 (by decide)⟩

/-- C10: provided `MAX_CHUNK_LENGTH` is at least 1, every chunk produced
by the chunking stage — hence every text string handed to
`synthesizeSentence` by `processChunksParallel` — is non-empty. -/
theorem c10_nonempty (t : List Char) (m : Nat) (hm : 1 ≤ m) :
    ∀ c ∈ textToChunks t m, c ≠ [] := by
  intro c hc
  unfold textToChunks at hc
  obtain ⟨cs, hcs, hmem⟩ := mem_catL hc
  obtain ⟨s, hs, rfl⟩ := List.mem_map.mp hcs
  exact chunkSentence_ne hm (sentences_ne_nil hs) hmem

/-- C10 witness: the theorem applied at a concrete text and chunk
bound. -/
theorem c10_nonempty_witness :
    1 ≤ 4 ∧ ∀ c ∈ textToChunks "abc。defgh。ij".data 4, c ≠ [] :=
  ⟨by decide, c10_nonempty "abc。defgh。ij".data 4 (by decide)⟩

theorem jpAt_true_iff {s : List Char} {j : Nat} :
    jpAt s j = true ↔ s.get? (j - 1) = some '。' := by
  unfold jpAt
  cases h : s.get? (j - 1) with
  | none => simp
  | some c => simp

theorem scanBack_eq (s : List Char) (m : Nat) :
    ∀ k, scanBack s m k =
      if Nat.findGreatest (fun j => 2 * j > m ∧ jpAt s j = true) k = 0 then none
      else some (Nat.findGreatest (fun j => 2 * j > m ∧ jpAt s j = true) k) := by
  intro k
  induction k with
  | zero => simp [scanBack]
  | succ k ih =>
    rw [scanBack]
    by_cases hw : 2 * (k + 1) > m
    · rw [if_pos hw]
      by_cases hc : s.get? k = some '。'
      · have hP : 2 * (k + 1) > m ∧ jpAt s (k + 1) = true :=
          ⟨hw, jpAt_true_iff.mpr (by simpa using hc)⟩
        rw [Nat.findGreatest_succ, if_pos hc, if_pos hP]
        simp
      · have hP : ¬(2 * (k + 1) > m ∧ jpAt s (k + 1) = true) := by
          intro h
          exact hc (by simpa using jpAt_true_iff.mp h.2)
        rw [Nat.findGreatest_succ, if_neg hc, if_neg hP]
        exact ih
    · rw [if_neg hw]
      have hz : Nat.findGreatest (fun j => 2 * j > m ∧ jpAt s j = true) (k + 1) = 0 := by
        rw [Nat.findGreatest_eq_zero_iff]
        intro n hn hnk h
        exact absurd h.1 (by omega)
      rw [hz]
      simp

theorem findCut_eq_cutPointSpec (s : List Char) (m : Nat) :
    findCut s m = cutPointSpec s m := by
  unfold findCut cutPointSpec
  rw [scanBack_eq]
  by_cases hz : Nat.findGreatest (fun j => 2 * j > m ∧ jpAt s j = true)
      (min s.length m) = 0
  · rw [if_pos hz, if_pos hz]
    rfl
  · rw [if_neg hz, if_neg hz]
    rfl

theorem cutIter_congr {cp1 cp2 : List Char → Nat → Nat}
    (h : ∀ s m, cp1 s m = cp2 s m) :
    ∀ fuel (s : List Char) (m : Nat), cutIter cp1 fuel s m = cutIter cp2 fuel s m := by
  intro fuel
  induction fuel with
  | zero => intro s m; rfl
  | succ fuel ih =>
    intro s m
    rw [cutIter, cutIter, h s m, ih]

/-- C7 (amended): the long-sentence cutter scans backward from the
max-length offset through the window of offsets strictly greater than
`MAX_CHUNK_LENGTH / 2` and cuts just after the last occurrence of the
Japanese full stop '。' only — not of every character used for sentence
splitting — hard-cutting at `min(length, MAX_CHUNK_LENGTH)` when the
window holds no '。', and repeating until the remainder is exhausted:
`cutSentence` coincides with the greatest-offset characterisation
`cutPointSpec` iterated until exhaustion. -/
theorem c7_amended (s : List Char) (m : Nat) :
    cutSentence s m = cutSentenceSpec s m ∧ findCut s m = cutPointSpec s m :=
  ⟨cutIter_congr (fun s' m' => findCut_eq_cutPointSpec s' m') s.length s m,
    findCut_eq_cutPointSpec s m⟩

/-- C7 counterexample: on the sentence "ab.cdef" with `MAX_CHUNK_LENGTH`
4, the offset 3 is inside the backward-scan window and holds the
sentence-splitting terminal '.', yet the code hard-cuts at offset 4
("ab.c" / "def"), while the cutter described by the claim (which scans
for the same period-like characters used for sentence splitting) cuts
after the '.' ("ab." / "cdef"). -/
theorem c7_counterexample :
    cutSentence "ab.cdef".data 4 = ["ab.c".data, "def".data] ∧
      cutSentenceClaim "ab.cdef".data 4 = ["ab.".data, "cdef".data] ∧
      cutSentence "ab.cdef".data 4 ≠ cutSentenceClaim "ab.cdef".data 4 := by
  decide

theorem noExec_nil : noExec [] := fun e he => by simp at he

theorem noExec_append {a b : List Ev} (ha : noExec a) (hb : noExec b) :
    noExec (a ++ b) := by
  intro x hx
  rcases List.mem_append.mp hx with h | h
  exacts [ha x h, hb x h]

theorem safeF_cons {e : Ev} {l : List Ev} (he : e ≠ Ev.read false)
    (hl : SafeF l) : SafeF (e :: l) := by
  rw [SafeF, if_neg he]
  exact hl

theorem safeF_cons_false {l : List Ev} (hl : noExec l) :
    SafeF (Ev.read false :: l) := by
  rw [SafeF, if_pos rfl]
  exact hl

theorem safeF_of_noExec {l : List Ev} (h : noExec l) : SafeF l := by
  induction l with
  | nil => trivial
  | cons e l ih =>
    have hl : noExec l := fun x hx => h x (List.mem_cons_of_mem e hx)
    by_cases he : e = Ev.read false
    · subst he
      exact safeF_cons_false hl
    · exact safeF_cons he (ih hl)

theorem safeF_append {a b : List Ev} (ha : SafeF a) (hb : SafeF b)
    (hc : Ev.read false ∈ a → noExec b) : SafeF (a ++ b) := by
  induction a with
  | nil => simpa using hb
  | cons e a ih =>
    by_cases he : e = Ev.read false
    · subst he
      have hae : noExec a := by
        rw [SafeF, if_pos rfl] at ha
        exact ha
      rw [List.cons_append]
      exact safeF_cons_false (noExec_append hae (hc (by simp)))
    · have ha' : SafeF a := by
        rw [SafeF, if_neg he] at ha
        exact ha
      have hc' : Ev.read false ∈ a → noExec b := fun h => hc (by simp [h])
      rw [List.cons_append]
      exact safeF_cons he (ih ha' hc')

theorem playA_reads (env : Env) (r i : Nat) : (playA env r i).reads = r + 1 := by
  unfold playA
  split
  · split <;> rfl
  · rfl

theorem playA_safe (env : Env) (r i : Nat) : SafeF (playA env r i).evs := by
  unfold playA
  split
  · split <;> simp [SafeF, noExec, isExecEv]
  · simp [SafeF, noExec, isExecEv]

theorem playA_noexec (env : Env) (r i : Nat) (h : env.cancelAt ≤ r) :
    noExec (playA env r i).evs := by
  have hb : readF env r = false := by
    simp only [readF, decide_eq_false_iff_not, not_lt]
    exact h
  unfold playA
  rw [hb]
  simp [noExec, isExecEv]

theorem playA_false_mem (env : Env) (r i : Nat)
    (h : Ev.read false ∈ (playA env r i).evs) : env.cancelAt ≤ r := by
  by_contra hlt
  push_neg at hlt
  have hb : readF env r = true := by
    simp only [readF, decide_eq_true_eq]
    exact hlt
  unfold playA at h
  rw [hb] at h
  by_cases hp : env.playOk i = true
  · rw [if_pos rfl, if_pos hp] at h
    simp at h
  · rw [if_pos rfl, if_neg hp] at h
    simp at h

theorem forL_props (env : Env) (n : Nat) :
    ∀ (fuel : Nat) (pending : List Nat) (bufLen ci r : Nat) (err : Bool),
      SafeF (forL env n fuel pending bufLen ci r err).evs ∧
        (env.cancelAt ≤ r → noExec (forL env n fuel pending bufLen ci r err).evs) ∧
        (Ev.read false ∈ (forL env n fuel pending bufLen ci r err).evs →
          env.cancelAt ≤ (forL env n fuel pending bufLen ci r err).reads) ∧
        r ≤ (forL env n fuel pending bufLen ci r err).reads := by
  intro fuel
  induction fuel with
  | zero =>
    intro pending bufLen ci r err
    exact ⟨trivial, fun _ => noExec_nil, fun h => by simp [forL] at h, le_rfl⟩
  | succ fuel ih =>
    intro pending bufLen ci r err
    cases pending with
    | nil =>
      exact ⟨trivial, fun _ => noExec_nil, fun h => by simp [forL] at h, le_rfl⟩
    | cons b rest =>
      by_cases hb : readF env r = true
      · have hr : r < env.cancelAt := by simpa [readF] using hb
        have hpr : (playA env (r + 1) b).reads = r + 2 := playA_reads env (r + 1) b
        rw [forL, if_pos hb]
        dsimp only
        refine ⟨?_, ?_, ?_, ?_⟩
        · refine safeF_cons (by simp) ?_
          refine safeF_append ?_ ?_ ?_
          · split
            · exact safeF_cons (by simp) trivial
            · trivial
          · refine safeF_append (playA_safe env (r + 1) b) (ih _ _ _ _ _).1 ?_
            intro hmem
            have hc1 : env.cancelAt ≤ r + 1 := playA_false_mem env (r + 1) b hmem
            exact (ih _ _ _ _ _).2.1 (by rw [hpr]; omega)
          · intro hmem
            exfalso
            revert hmem
            split <;> simp
        · intro hca
          exact absurd (lt_of_lt_of_le hr hca) (lt_irrefl r)
        · intro hmem
          rcases List.mem_cons.mp hmem with heq | hmem
          · exact absurd heq (by simp)
          · rcases List.mem_append.mp hmem with hmem | hmem
            · exfalso
              revert hmem
              split <;> simp
            · rcases List.mem_append.mp hmem with hmem | hmem
              · have hc1 : env.cancelAt ≤ r + 1 := playA_false_mem env (r + 1) b hmem
                refine le_trans ?_ (ih _ _ _ _ _).2.2.2
                rw [hpr]
                omega
              · exact (ih _ _ _ _ _).2.2.1 hmem
        · refine le_trans ?_ (ih _ _ _ _ _).2.2.2
          rw [hpr]
          omega
      · have hr : env.cancelAt ≤ r := by
          have h2 : ¬(r < env.cancelAt) := by simpa [readF] using hb
          omega
        rw [forL, if_neg hb]
        dsimp only
        refine ⟨safeF_cons_false noExec_nil, fun _ => ?_, fun _ => ?_, ?_⟩
        · intro x hx
          rcases List.mem_singleton.mp hx with rfl
          rfl
        · omega
        · omega

theorem whileL_props (env : Env) (n : Nat) :
    ∀ (fuel ci bufLen r : Nat) (err : Bool),
      SafeF (whileL env n fuel ci bufLen r err).evs ∧
        (env.cancelAt ≤ r → noExec (whileL env n fuel ci bufLen r err).evs) ∧
        (Ev.read false ∈ (whileL env n fuel ci bufLen r err).evs →
          env.cancelAt ≤ (whileL env n fuel ci bufLen r err).reads) ∧
        r ≤ (whileL env n fuel ci bufLen r err).reads := by
  intro fuel
  induction fuel with
  | zero =>
    intro ci bufLen r err
    exact ⟨trivial, fun _ => noExec_nil, fun h => by simp [whileL] at h, le_rfl⟩
  | succ fuel ih =>
    intro ci bufLen r err
    by_cases hcond : ci + bufLen < n
    · by_cases hb : readF env r = true
      · have hr : r < env.cancelAt := by simpa [readF] using hb
        by_cases hb2 : readF env (r + 1) = true
        · have hr2 : r + 1 < env.cancelAt := by simpa [readF] using hb2
          by_cases hs : env.synthOk (ci + bufLen) = true
          · have hpr : (playA env (r + 2) (ci + bufLen)).reads = r + 3 :=
              playA_reads env (r + 2) (ci + bufLen)
            rw [whileL, if_pos hcond, if_pos hb]
            dsimp only
            rw [if_pos hb2, if_pos hs]
            dsimp only
            refine ⟨?_, fun hca => ?_, ?_, ?_⟩
            · refine safeF_cons (by simp) (safeF_cons (by simp)
                (safeF_cons (by simp) ?_))
              refine safeF_append (playA_safe env (r + 2) (ci + bufLen))
                (ih _ _ _ _).1 ?_
              intro hmem
              have hc1 : env.cancelAt ≤ r + 2 :=
                playA_false_mem env (r + 2) (ci + bufLen) hmem
              exact (ih _ _ _ _).2.1 (by rw [hpr]; omega)
            · exact absurd (lt_of_lt_of_le hr hca) (lt_irrefl r)
            · intro hmem
              rcases List.mem_cons.mp hmem with heq | hmem
              · exact absurd heq (by simp)
              rcases List.mem_cons.mp hmem with heq | hmem
              · exact absurd heq (by simp)
              rcases List.mem_cons.mp hmem with heq | hmem
              · exact absurd heq (by simp)
              rcases List.mem_append.mp hmem with hmem | hmem
              · have hc1 : env.cancelAt ≤ r + 2 :=
                  playA_false_mem env (r + 2) (ci + bufLen) hmem
                refine le_trans ?_ (ih _ _ _ _).2.2.2
                rw [hpr]
                omega
              · exact (ih _ _ _ _).2.2.1 hmem
            · refine le_trans ?_ (ih _ _ _ _).2.2.2
              rw [hpr]
              omega
          · rw [whileL, if_pos hcond, if_pos hb]
            dsimp only
            rw [if_pos hb2, if_neg hs]
            dsimp only
            refine ⟨?_, fun hca => ?_, ?_, ?_⟩
            · exact safeF_cons (by simp) (safeF_cons (by simp)
                (safeF_cons (by simp) (ih _ _ _ _).1))
            · exact absurd (lt_of_lt_of_le hr hca) (lt_irrefl r)
            · intro hmem
              rcases List.mem_cons.mp hmem with heq | hmem
              · exact absurd heq (by simp)
              rcases List.mem_cons.mp hmem with heq | hmem
              · exact absurd heq (by simp)
              rcases List.mem_cons.mp hmem with heq | hmem
              · exact absurd heq (by simp)
              exact (ih _ _ _ _).2.2.1 hmem
            · exact le_trans (by omega) (ih _ _ _ _).2.2.2
        · have hr2 : env.cancelAt ≤ r + 1 := by
            have h2 : ¬(r + 1 < env.cancelAt) := by simpa [readF] using hb2
            omega
          rw [whileL, if_pos hcond, if_pos hb]
          dsimp only
          rw [if_neg hb2]
          dsimp only
          refine ⟨?_, fun hca => ?_, fun _ => ?_, ?_⟩
          · exact safeF_cons (by simp) (safeF_cons (by simp)
              (safeF_cons_false noExec_nil))
          · exact absurd (lt_of_lt_of_le hr hca) (lt_irrefl r)
          · omega
          · omega
      · have hr : env.cancelAt ≤ r := by
          have h2 : ¬(r < env.cancelAt) := by simpa [readF] using hb
          omega
        rw [whileL, if_pos hcond, if_neg hb]
        dsimp only
        refine ⟨safeF_cons_false noExec_nil, fun _ => ?_, fun _ => ?_, ?_⟩
        · intro x hx
          rcases List.mem_singleton.mp hx with rfl
          rfl
        · omega
        · omega
    · rw [whileL, if_neg hcond]
      exact ⟨trivial, fun _ => noExec_nil, fun h => by simp at h, le_rfl⟩

theorem noExec_cons {e : Ev} {l : List Ev} (he : isExecEv e = false)
    (hl : noExec l) : noExec (e :: l) := by
  intro x hx
  rcases List.mem_cons.mp hx with rfl | hx
  exacts [he, hl x hx]

theorem synthList_noExec (l : List Nat) (f : Nat → Bool) :
    noExec (l.map fun i => Ev.synth i (f i)) := by
  intro e he
  obtain ⟨i, _, rfl⟩ := List.mem_map.mp he
  rfl

theorem synthList_no_false (l : List Nat) (f : Nat → Bool) :
    Ev.read false ∉ (l.map fun i => Ev.synth i (f i)) := by
  intro h
  obtain ⟨i, _, heq⟩ := List.mem_map.mp h
  simp at heq

theorem runF_props (env : Env) (n r0 : Nat) :
    SafeF (runF env n r0).evs ∧
      (env.cancelAt ≤ (playA env r0 0).reads → noExec (runF env n r0).evs) ∧
      (Ev.read false ∈ (runF env n r0).evs →
        env.cancelAt ≤ (runF env n r0).reads) ∧
      (playA env r0 0).reads ≤ (runF env n r0).reads :=
  forL_props env n (2 * n + 4) (pend0 env n) (pend0 env n).length 1
    (playA env r0 0).reads (err0 env n || !(playA env r0 0).ok)

theorem runW_props (env : Env) (n r0 : Nat) :
    SafeF (runW env n r0).evs ∧
      (env.cancelAt ≤ (runF env n r0).reads → noExec (runW env n r0).evs) ∧
      (Ev.read false ∈ (runW env n r0).evs →
        env.cancelAt ≤ (runW env n r0).reads) ∧
      (runF env n r0).reads ≤ (runW env n r0).reads :=
  whileL_props env n (n + 1) (runF env n r0).ci (runF env n r0).bufLen
    (runF env n r0).reads (runF env n r0).err

theorem processChunks_props (env : Env) (n r0 : Nat) :
    SafeF (processChunks env n r0).evs ∧
      (env.cancelAt ≤ r0 → noExec (processChunks env n r0).evs) ∧
      (Ev.read false ∈ (processChunks env n r0).evs →
        env.cancelAt ≤ (processChunks env n r0).reads) ∧
      r0 ≤ (processChunks env n r0).reads := by
  by_cases hn : n = 0
  · rw [processChunks, if_pos hn]
    exact ⟨trivial, fun _ => noExec_nil, fun h => by simp at h, le_rfl⟩
  · by_cases hs0 : env.synthOk 0 = true
    · have hp : (playA env r0 0).reads = r0 + 1 := playA_reads env r0 0
      obtain ⟨f1, f2, f3, f4⟩ := runF_props env n r0
      obtain ⟨w1, w2, w3, w4⟩ := runW_props env n r0
      rw [processChunks, if_neg hn, if_pos hs0]
      dsimp only
      refine ⟨?_, ?_, ?_, ?_⟩
      · refine safeF_cons (by simp) ?_
        refine safeF_append (safeF_of_noExec (synthList_noExec _ _)) ?_ ?_
        · refine safeF_append (playA_safe env r0 0) ?_ ?_
          · refine safeF_append f1 w1 ?_
            intro hmem
            exact w2 (f3 hmem)
          · intro hmem
            have hc1 : env.cancelAt ≤ r0 := playA_false_mem env r0 0 hmem
            refine noExec_append (f2 (by omega)) (w2 ?_)
            omega
        · intro hmem
          exact absurd hmem (synthList_no_false _ _)
      · intro hca
        refine noExec_cons rfl ?_
        refine noExec_append (synthList_noExec _ _) ?_
        refine noExec_append (playA_noexec env r0 0 hca) ?_
        refine noExec_append (f2 (by omega)) (w2 ?_)
        omega
      · intro hmem
        rcases List.mem_cons.mp hmem with heq | hmem
        · exact absurd heq (by simp)
        rcases List.mem_append.mp hmem with hmem | hmem
        · exact absurd hmem (synthList_no_false _ _)
        rcases List.mem_append.mp hmem with hmem | hmem
        · have hc1 : env.cancelAt ≤ r0 := playA_false_mem env r0 0 hmem
          omega
        rcases List.mem_append.mp hmem with hmem | hmem
        · have := f3 hmem
          omega
        · exact w3 hmem
      · omega
    · rw [processChunks, if_neg hn, if_neg hs0]
      refine ⟨safeF_cons (by simp) trivial, fun _ => ?_, fun h => ?_, le_rfl⟩
      · exact noExec_cons rfl noExec_nil
      · exfalso
        rcases List.mem_cons.mp h with heq | h
        · exact absurd heq (by simp)
        · simp at h

/-- C2 (amended): if the cancellation flag is cleared at any point during
a pipeline run, no platform playback is performed afterward — once the
flag has been read `false`, no platform play command occurs in the rest
of the trace — and any play attempt that finds the flag cleared deletes
its audio file and reports failure without invoking the platform player.
The run's overall result, however, is not necessarily failure: a
cancellation detected at a loop-boundary check with no recorded error
leaves the result `success` (see the counterexample). -/
theorem c2_amended (env : Env) (n r0 : Nat) :
    SafeF (processChunks env n r0).evs ∧
      (∀ r i, readF env r = false →
        (playA env r i).evs = [Ev.read false, Ev.unlink i] ∧
          (playA env r i).ok = false) := by
  refine ⟨(processChunks_props env n r0).1, ?_⟩
  intro r i hb
  unfold playA
  rw [hb]
  exact ⟨rfl, rfl⟩

/-- C2 (amended) witness: the theorem applied to the concrete environment
`env2` (three chunks, flag cleared after one consultation). -/
theorem c2_amended_witness :
    readF env2 1 = false ∧
      ((playA env2 1 0).evs = [Ev.read false, Ev.unlink 0] ∧
        (playA env2 1 0).ok = false) ∧
      SafeF (processChunks env2 3 0).evs :=
  ⟨by decide, (c2_amended env2 3 0).2 1 0 (by decide), (c2_amended env2 3 0).1⟩

/-- C2 counterexample: in the run of `env2` (three chunks, every
synthesis and playback succeeding, the flag cleared right after the
playback of chunk 0 starts), the flag is observed cleared during the run
— a `false` flag read occurs in the trace — yet `processChunksParallel`
returns success, contradicting the claim that the run's overall result is
failure whenever the flag is cleared during the run.  (The cancellation is
detected at the steady-state loop's boundary check, which `break`s without
setting `hasError`.) -/
theorem c2_counterexample :
    Ev.read false ∈ (processChunks env2 3 0).evs ∧
      (processChunks env2 3 0).ok = true := by
  decide

/-- C1 (code bug): with three chunks where only chunk 1's lookahead
synthesis fails (everything else succeeding, no cancellation), the
pipeline plays chunk 2 twice — the platform play commands of the run are
for chunks 0, 2, 2 in that order — violating the claimed strictly
ascending play order (each chunk at most once).  The cause: consumed
entries are never removed from `preloadedResults`, so
`nextIndex = currentIndex + preloadedResults.length` double-counts them,
and after the preload failure shrinks the buffer, chunk 2 is synthesized
and buffered a second time. -/
theorem c1_eval :
    execIdx (processChunks env1 3 0).evs = [0, 2, 2] ∧
      (processChunks env1 3 0).ok = false := by
  decide

/-- C4 (code bug): with five chunks where only chunk 3's synthesis fails
(launched from the steady-state loop), the failed result is dropped at
line 706 without setting `hasError`, so the run returns success even
though chunk 3 was attempted and never played (the platform play commands
are for chunks 0, 1, 2, 4) — contradicting the claim that a later-chunk
synthesis failure makes the run's overall result failure.  The claim's
own concrete scenario — failure exactly on chunk 2 of 5, where the
failure occurs in the lookahead batch — does hold: the run fails and
chunks 0, 1, 3, 4 are played. -/
theorem c4_eval :
    ((processChunks env4 5 0).ok = true ∧
      execIdx (processChunks env4 5 0).evs = [0, 1, 2, 4] ∧
      Ev.synth 3 false ∈ (processChunks env4 5 0).evs) ∧
    ((processChunks env4b 5 0).ok = false ∧
      execIdx (processChunks env4b 5 0).evs = [0, 1, 3, 4]) := by
  decide

/-- C5 (amended): for every `playAudio` call — if the cancellation flag
is `false` at entry, the audio file is deleted and failure is reported
without invoking the platform player; if the flag is `true`, the platform
command is run to completion and a command failure is reported as
failure.  The audio file is released before returning in the
unauthorized and success cases, but NOT on platform-command failure:
the error thrown by `exec` jumps to the catch block and skips
`unlinkSync`, leaking the file. -/
theorem c5_amended (env : Env) (r i : Nat) :
    (readF env r = false →
      (playA env r i).evs = [Ev.read false, Ev.unlink i] ∧
        (playA env r i).ok = false) ∧
    (readF env r = true → env.playOk i = true →
      (playA env r i).evs = [Ev.read true, Ev.exec i true, Ev.unlink i] ∧
        (playA env r i).ok = true) ∧
    (readF env r = true → env.playOk i = false →
      (playA env r i).evs = [Ev.read true, Ev.exec i false] ∧
        (playA env r i).ok = false ∧ Ev.unlink i ∉ (playA env r i).evs) := by
  refine ⟨?_, ?_, ?_⟩
  · intro h1
    unfold playA
    rw [h1]
    exact ⟨rfl, rfl⟩
  · intro h1 h2
    unfold playA
    rw [h1, h2]
    exact ⟨rfl, rfl⟩
  · intro h1 h2
    unfold playA
    rw [h1, h2]
    refine ⟨rfl, rfl, ?_⟩
    simp

/-- C5 (amended) witness: the theorem applied to a call with the flag
authorized and a failing platform command. -/
theorem c5_amended_witness :
    readF env5 0 = true ∧ env5.playOk 0 = false ∧
      ((playA env5 0 0).evs = [Ev.read true, Ev.exec 0 false] ∧
        (playA env5 0 0).ok = false ∧ Ev.unlink 0 ∉ (playA env5 0 0).evs) :=
  ⟨by decide, by decide, (c5_amended env5 0 0).2.2 (by decide) (by decide)⟩

/-- C5 counterexample: with the flag authorized and the platform command
failing, `playAudio` invokes the platform player and reports failure but
does NOT delete the audio file before returning — contradicting the
claim that in every case the underlying file is released before `play`
returns. -/
theorem c5_counterexample :
    Ev.exec 0 false ∈ (playA env5 0 0).evs ∧
      (playA env5 0 0).ok = false ∧
      Ev.unlink 0 ∉ (playA env5 0 0).evs := by
  decide

theorem noExecD_nil : noExecD [] := fun e he => by simp at he

theorem noExecD_cons {e : Nat × Nat × Ev} {l : List (Nat × Nat × Ev)}
    (he : isExecEv e.2.2 = false) (hl : noExecD l) : noExecD (e :: l) := by
  intro x hx
  rcases List.mem_cons.mp hx with rfl | hx
  exacts [he, hl x hx]

theorem noExecD_append {a b : List (Nat × Nat × Ev)} (ha : noExecD a)
    (hb : noExecD b) : noExecD (a ++ b) := by
  intro x hx
  rcases List.mem_append.mp hx with h | h
  exacts [ha x h, hb x h]

theorem noExecD_tagged {l k : Nat} {evs : List Ev} (h : noExec evs) :
    noExecD (evs.map fun e => (l, k, e)) := by
  intro x hx
  obtain ⟨e, he, rfl⟩ := List.mem_map.mp hx
  exact h e he

theorem convLoop_noExec (env : EnvD) (m l : Nat) (hc : env.cancelAt l ≤ 1) :
    ∀ (ts : List (List Char)) (k r : Nat),
      noExecD (convLoop env m l ts k r).evs := by
  intro ts
  induction ts with
  | nil => intro k r; exact noExecD_nil
  | cons t ts ih =>
    intro k r
    rw [convLoop]
    by_cases hb : decide (r < env.cancelAt l) = true
    · rw [if_pos hb]
      dsimp only
      have hpipe : noExec
          (processChunks (envAt env l k) (textToChunks t m).length (r + 1)).evs := by
        refine (processChunks_props (envAt env l k)
          (textToChunks t m).length (r + 1)).2.1 ?_
        show env.cancelAt l ≤ r + 1
        omega
      split
      · dsimp only
        exact noExecD_append (noExecD_cons rfl (noExecD_tagged hpipe)) (ih _ _)
      · dsimp only
        exact noExecD_cons rfl (noExecD_tagged hpipe)
    · rw [if_neg hb]
      intro x hx
      rcases List.mem_singleton.mp hx with rfl
      rfl

/-- C6: `stopAudio` sets the cancellation flag to `false`, empties the
dialogue queue and reports success; consequently, when the stop lands
before any playback of the turn-list being processed has started (the
flag is cleared by the time of its second consultation in that list —
the first consultation made inside any `playAudio` — as happens for an
immediate `stop` after `enqueue`), no platform playback command is ever
invoked while that turn-list is processed; the queue, cleared by the
stop, stays empty. -/
theorem c6_stop :
    (∀ q : QueueState, (stopAudio q).1.flag = false ∧
      (stopAudio q).1.queue = [] ∧ (stopAudio q).2 = true) ∧
    (∀ (env : EnvD) (m l : Nat), env.cancelAt l ≤ 1 →
      ∀ (ts : List (List Char)) (k r : Nat),
        noExecD (convLoop env m l ts k r).evs) :=
  ⟨fun _ => ⟨rfl, rfl, rfl⟩,
    fun env m l hc ts k r => convLoop_noExec env m l hc ts k r⟩

/-- C6 witness: the theorem applied to the concrete scenario — a
two-turn list of the texts "A" and "B" whose flag is cleared after one
consultation (a stop arriving during the first turn's synthesis, before
any playback). -/
theorem c6_stop_witness :
    envD1.cancelAt 0 ≤ 1 ∧
      noExecD (convLoop envD1 300 0 ["A".data, "B".data] 0 0).evs :=
  ⟨by decide, c6_stop.2 envD1 300 0 (by decide) ["A".data, "B".data] 0 0⟩

theorem convLoop_tags (env : EnvD) (m l : Nat) :
    ∀ (ts : List (List Char)) (k r : Nat),
      ∀ e ∈ (convLoop env m l ts k r).evs, e.1 = l ∧ k ≤ e.2.1 := by
  intro ts
  induction ts with
  | nil => intro k r e he; simp [convLoop] at he
  | cons t ts ih =>
    intro k r e he
    rw [convLoop] at he
    by_cases hb : decide (r < env.cancelAt l) = true
    · rw [if_pos hb] at he
      dsimp only at he
      split at he
      · dsimp only at he
        rcases List.mem_append.mp he with he | he
        · rcases List.mem_cons.mp he with rfl | he
          · exact ⟨rfl, le_rfl⟩
          · obtain ⟨x, _, rfl⟩ := List.mem_map.mp he
            exact ⟨rfl, le_rfl⟩
        · obtain ⟨h1, h2⟩ := ih (k + 1) _ e he
          exact ⟨h1, by omega⟩
      · dsimp only at he
        rcases List.mem_cons.mp he with rfl | he
        · exact ⟨rfl, le_rfl⟩
        · obtain ⟨x, _, rfl⟩ := List.mem_map.mp he
          exact ⟨rfl, le_rfl⟩
    · rw [if_neg hb] at he
      rcases List.mem_singleton.mp he with rfl
      exact ⟨rfl, le_rfl⟩

theorem pairwise_const_tag {l k : Nat} {L : List (Nat × Nat × Ev)}
    (h : ∀ e ∈ L, e.1 = l ∧ e.2.1 = k) : L.Pairwise tagLe := by
  induction L with
  | nil => exact List.Pairwise.nil
  | cons x xs ih =>
    refine List.Pairwise.cons ?_ (ih fun e he => h e (List.mem_cons_of_mem x he))
    intro b hb
    obtain ⟨hx1, hx2⟩ := h x (List.mem_cons_self x xs)
    obtain ⟨hb1, hb2⟩ := h b (List.mem_cons_of_mem x hb)
    exact Or.inr ⟨hx1.trans hb1.symm, by omega⟩

theorem convLoop_pairwise (env : EnvD) (m l : Nat) :
    ∀ (ts : List (List Char)) (k r : Nat),
      ((convLoop env m l ts k r).evs).Pairwise tagLe := by
  intro ts
  induction ts with
  | nil => intro k r; exact List.Pairwise.nil
  | cons t ts ih =>
    intro k r
    rw [convLoop]
    by_cases hb : decide (r < env.cancelAt l) = true
    · rw [if_pos hb]
      dsimp only
      have htag : ∀ e ∈ ((l, k, Ev.read true) ::
          (processChunks (envAt env l k) (textToChunks t m).length
            (r + 1)).evs.map fun e => (l, k, e)),
          e.1 = l ∧ e.2.1 = k := by
        intro e he
        rcases List.mem_cons.mp he with rfl | he
        · exact ⟨rfl, rfl⟩
        · obtain ⟨x, _, rfl⟩ := List.mem_map.mp he
          exact ⟨rfl, rfl⟩
      split
      · dsimp only
        rw [List.pairwise_append]
        refine ⟨pairwise_const_tag htag, ih _ _, ?_⟩
        intro a ha b hb2
        obtain ⟨ha1, ha2⟩ := htag a ha
        obtain ⟨hb1, hb2'⟩ := convLoop_tags env m l ts (k + 1) _ b hb2
        exact Or.inr ⟨ha1.trans hb1.symm, by omega⟩
      · dsimp only
        exact pairwise_const_tag htag
    · rw [if_neg hb]
      exact List.pairwise_singleton tagLe (l, k, Ev.read false)

theorem drain_tags (env : EnvD) (m : Nat) :
    ∀ (ls : List (List (List Char))) (i : Nat),
      ∀ e ∈ drain env m ls i, i ≤ e.1 := by
  intro ls
  induction ls with
  | nil => intro i e he; simp [drain] at he
  | cons l ls ih =>
    intro i e he
    rw [drain] at he
    rcases List.mem_append.mp he with he | he
    · exact (convLoop_tags env m i l 0 0 e he).1.ge
    · have := ih (i + 1) e he
      omega

/-- C9: turn-lists are processed strictly in FIFO order with no
interleaving: in the trace of a whole queue drain, the (turn-list index,
turn index) tags of the emitted events are lexicographically
non-decreasing — every event of a later-dequeued turn-list comes after
all events of earlier ones, and within a turn-list every event of turn
N+1 comes after all events of turn N (a turn or turn-list that fails or
is cancelled simply ends its block early). -/
theorem c9_fifo (env : EnvD) (m : Nat) (lists : List (List (List Char)))
    (i : Nat) : (drain env m lists i).Pairwise tagLe := by
  induction lists generalizing i with
  | nil => exact List.Pairwise.nil
  | cons l ls ih =>
    rw [drain, List.pairwise_append]
    refine ⟨convLoop_pairwise env m i l 0 0, ih (i + 1), ?_⟩
    intro a ha b hb
    have ha1 : a.1 = i := (convLoop_tags env m i l 0 0 a ha).1
    have hb1 : i + 1 ≤ b.1 := drain_tags env m ls (i + 1) b hb
    exact Or.inl (by omega)

theorem lookupKV_setField_same {α : Type} (d : List (String × α))
    (k : String) (v : α) : lookupKV (setField d k v) k = some v := by
  induction d with
  | nil => simp [setField, lookupKV]
  | cons kv rest ih =>
    obtain ⟨k', v'⟩ := kv
    by_cases h : k' = k
    · subst h
      simp [setField, lookupKV]
    · rw [setField, if_neg h, lookupKV, if_neg h]
      exact ih

theorem lookupKV_setField_other {α : Type} (d : List (String × α))
    (k k' : String) (v : α) (h : k ≠ k') :
    lookupKV (setField d k v) k' = lookupKV d k' := by
  induction d with
  | nil => simp [setField, lookupKV, h]
  | cons kv rest ih =>
    obtain ⟨k0, v0⟩ := kv
    by_cases h0 : k0 = k
    · subst h0
      rw [setField, if_pos rfl, lookupKV, if_neg h, lookupKV, if_neg h]
    · rw [setField, if_neg h0]
      by_cases h1 : k0 = k'
      · rw [lookupKV, if_pos h1, lookupKV, if_pos h1]
      · rw [lookupKV, if_neg h1, lookupKV, if_neg h1]
        exact ih

/-- C8: the descriptor submitted to the engine's synthesis endpoint
equals the descriptor returned by the query endpoint with exactly the
five fields `volumeScale`, `speedScale`, `prePhonemeLength`,
`postPhonemeLength` and `intonationScale` replaced by the configured
constants; looking up any other key yields the query descriptor's
value unchanged. -/
theorem c8_overrides {α : Type} (q : List (String × α)) (c : Cfg α)
    (k : String) :
    lookupKV (applyOverrides q c) k =
      if k = "volumeScale" then some c.volume
      else if k = "speedScale" then some c.speed
      else if k = "prePhonemeLength" then some c.pre
      else if k = "postPhonemeLength" then some c.post
      else if k = "intonationScale" then some c.intonation
      else lookupKV q k := by
  unfold applyOverrides
  by_cases h5 : k = "intonationScale"
  · subst h5
    rw [lookupKV_setField_same]
    simp
  · rw [lookupKV_setField_other _ _ _ _ fun heq => h5 heq.symm]
    by_cases h4 : k = "postPhonemeLength"
    · subst h4
      rw [lookupKV_setField_same]
      simp
    · rw [lookupKV_setField_other _ _ _ _ fun heq => h4 heq.symm]
      by_cases h3 : k = "prePhonemeLength"
      · subst h3
        rw [lookupKV_setField_same]
        simp
      · rw [lookupKV_setField_other _ _ _ _ fun heq => h3 heq.symm]
        by_cases h2 : k = "speedScale"
        · subst h2
          rw [lookupKV_setField_same]
          simp
        · rw [lookupKV_setField_other _ _ _ _ fun heq => h2 heq.symm]
          by_cases h1 : k = "volumeScale"
          · subst h1
            rw [lookupKV_setField_same]
            simp
          · rw [lookupKV_setField_other _ _ _ _ fun heq => h1 heq.symm]
            rw [if_neg h1, if_neg h2, if_neg h3, if_neg h4, if_neg h5]

end Voicevox
